import Mathlib

/-!
Verification development for the `laim` reaction-time grid minigame
(`src/lib.rs`, `src/record.rs`). The game state (grid dimensions, the set
of active cells, the current run score, and the per-grid-config history of
completed runs) is embedded shallowly: machine integers are `Nat` with
explicit `% 2^32` wrapping where the source performs `u32` arithmetic,
the `FxHashMap` history store is an association list, the random number
generator is an explicit stream of proposed positions, and the persisted
history string is a `List Char`.
-/

namespace Laim

/-- Wrapping `u32` multiplication, as performed by the release-mode Rust build. -/
def u32Mul (a b : Nat) : Nat := a * b % 4294967296

/-- Wrapping `u32` subtraction (for `a b < 2^32`), as performed by the
release-mode Rust build. -/
def u32Sub (a b : Nat) : Nat := (a + 4294967296 - b) % 4294967296

/-- One grid cell, `(row, col)` (`type Position = (u32, u32)` in `lib.rs`). -/
abbrev Position := Nat × Nat

/-- A grid configuration `(rows, columns, active)`, the key of the history map. -/
abbrev GridConfig := Nat × Nat × Nat

/-- Embedding of `Record` from `record.rs`: one completed game. -/
structure Record where
  position : Nat
  score : Nat
  millis : Nat
  rows : Nat
  columns : Nat
  active : Nat
deriving DecidableEq, Repr

/-- Embedding of `Record::new`. -/
def Record.new (position score millis rows columns active : Nat) : Record :=
  ⟨position, score, millis, rows, columns, active⟩

/-- The history store `FxHashMap<(u32, u32, u32), VecDeque<Record>>`,
modelled as an association list with distinct keys; the `VecDeque` front is
the list head. -/
abbrev Store := List (GridConfig × List Record)

/-- Map lookup (`HashMap::get` / reading an `entry`). -/
def lookupStore : Store → GridConfig → Option (List Record)
  | [], _ => none
  | (k, v) :: rest, key => if k = key then some v else lookupStore rest key

/-- Replace the bucket at `key` with `v`, inserting the key if absent
(the net effect of `entry(key)` followed by overwriting the bucket). -/
def setStore : Store → GridConfig → List Record → Store
  | [], key, v => [(key, v)]
  | (k, w) :: rest, key, v =>
      if k = key then (key, v) :: rest else (k, w) :: setStore rest key v

/-- Embedding of `entry(key).or_insert_with(VecDeque::new).push_back(r)`
from the history load closure. -/
def entryPushBack : Store → GridConfig → Record → Store
  | [], key, r => [(key, [r])]
  | (k, v) :: rest, key, r =>
      if k = key then (k, v ++ [r]) :: rest else (k, v) :: entryPushBack rest key r

/-- Embedding of the `game_over` closure (`lib.rs:400-422`): given the current
run (`score`, `millis`), the grid config in effect (`rows`, `columns`, and the
clamped `active` memo), and the history store, it returns the updated store and
the reset score. A record with `position = entry.len() + 1` is pushed to the
front of the bucket when `score > 1`; the score is always reset to `0`. -/
def game_over (rows columns active score millis : Nat) (history : Store) :
    Store × Nat :=
  if 1 < score then
    let bucket := (lookupStore history (rows, columns, active)).getD []
    let newRec := Record.new (bucket.length + 1) score millis rows columns active
    (setStore history (rows, columns, active) (newRec :: bucket), 0)
  else (history, 0)

/-- Embedding of the `max_by` comparator in the `best_record` memo
(`lib.rs:235-241`): score compared first, and on a tie the millis comparison is
reversed so that fewer millis compares greater. -/
def cmpRecord (a b : Record) : Ordering :=
  match compare a.score b.score with
  | Ordering.eq => compare b.millis a.millis
  | o => o

/-- One step of Rust `Iterator::max_by`: keep the accumulator only when it
compares strictly greater, so the last of equal maxima wins. -/
def maxStep (a b : Record) : Record :=
  if cmpRecord a b = Ordering.gt then a else b

/-- Embedding of the `best_record` memo (`lib.rs:228-243`): the maximum of the
in-progress run's record and the history bucket of the current grid config
under the comparator, realised as the `max_by` fold seeded with the current
record. -/
def best_record (current : Record) (bucket : List Record) : Record :=
  bucket.foldl maxStep current

/-- The displayed best record dominates `r`: it has at least the score of `r`,
and on a score tie at most the millis of `r`. -/
def beats (best r : Record) : Prop :=
  r.score ≤ best.score ∧ (r.score = best.score → best.millis ≤ r.millis)

instance (best r : Record) : Decidable (beats best r) := by
  unfold beats; infer_instance

/-- Rejection sampling loop shared by `update_current` (`lib.rs:245-263`) and
the initial resample in `Game` (`lib.rs:385-398`): while the set is smaller
than the target, take the next proposed random cell, skipping proposals
already present. The `HashSet` is modelled as a duplicate-free list whose
insert is a cons (insertion only happens after the membership test). `none`
models a run of proposals too short to fill the set. -/
def resampleAux (target : Nat) : List Position → List Position → Option (List Position)
  | [], acc => if acc.length < target then none else some acc
  | p :: rest, acc =>
      if acc.length < target then
        if p ∈ acc then resampleAux target rest acc
        else resampleAux target rest (p :: acc)
      else some acc

/-- Embedding of the `update_current` closure (`lib.rs:245-263`): clear the
set, clamp the target to `active.min(columns * rows - 1)` in `u32` arithmetic,
then rejection-sample fresh cells from the proposal stream. -/
def update_current (rows columns active : Nat) (props : List Position) :
    Option (List Position) :=
  resampleAux (min active (u32Sub (u32Mul columns rows) 1)) props []

/-- The replacement sampling loop of `on_input` (`lib.rs:439-442`): draw
proposals until one is outside the currently active set. -/
def sampleExcluding (cur : List Position) : List Position → Option Position
  | [] => none
  | p :: rest => if p ∈ cur then sampleExcluding cur rest else some p

/-- Embedding of the hit branch of `on_input` (`lib.rs:425-446`), restricted
to its effect on the active set: when the input cell is active, sample one
replacement excluding every currently active cell, then remove the hit cell
and insert the replacement. -/
def onInputHit (cur : List Position) (rc : Position) (props : List Position) :
    Option (List Position) :=
  if rc ∈ cur then
    (sampleExcluding cur props).map (fun n => n :: cur.erase rc)
  else none

/-- Rust `str::split_once`: split at the first occurrence of `c`, neither part
containing the delimiter occurrence. -/
def splitOnce (c : Char) : List Char → Option (List Char × List Char)
  | [] => none
  | x :: xs =>
      if x = c then some ([], xs)
      else (splitOnce c xs).map (fun p => (x :: p.1, p.2))

/-- Rust `str::starts_with` for a string pattern. -/
def startsWith : List Char → List Char → Bool
  | [], _ => true
  | _ :: _, [] => false
  | p :: ps, x :: xs => p == x && startsWith ps xs

/-- Rust `str::trim_start_matches`: repeatedly strip the pattern from the
front while it is a prefix (fuelled; the fuel is sized so it never runs out
for a non-empty pattern). -/
def trimStartMatches : Nat → List Char → List Char → List Char
  | 0, _, s => s
  | fuel + 1, pat, s =>
      if startsWith pat s then trimStartMatches fuel pat (s.drop pat.length)
      else s

/-- Strip every complete run of `k` tabs from the front, as
`trim_start_matches` with a `k`-tab pattern does. -/
def trimTabs (k : Nat) (s : List Char) : List Char :=
  trimStartMatches (s.length + 1) (List.replicate k '\t') s

/-- Decimal digit value of a character, if any. -/
def digitVal (c : Char) : Option Nat :=
  if '0' ≤ c ∧ c ≤ '9' then some (c.toNat - 48) else none

def parseDigitsAux : List Char → Nat → Option Nat
  | [], acc => some acc
  | c :: cs, acc =>
      match digitVal c with
      | some d => parseDigitsAux cs (acc * 10 + d)
      | none => none

/-- Rust `str::parse` for an unsigned integer type with exclusive upper bound
`bound`: an optional leading plus sign, then one or more decimal digits, and
the value must fit (Rust reports intermediate overflow; rejecting a final
value at or above the bound is equivalent). -/
def parseUInt (bound : Nat) (cs : List Char) : Option Nat :=
  let cs2 := match cs with
    | '+' :: rest => rest
    | _ => cs
  match cs2 with
  | [] => none
  | _ =>
      match parseDigitsAux cs2 0 with
      | some n => if n < bound then some n else none
      | none => none

/-- Rust `str::parse::<u32>`. -/
def parseU32 : List Char → Option Nat := parseUInt 4294967296

/-- Rust `str::parse::<u128>`. -/
def parseU128 : List Char → Option Nat := parseUInt (2 ^ 128)

/-- The record-line parse performed inline by the record loop
(`lib.rs:131-149`): split at two commas, then parse `u32`, `u32`, `u128`.
`none` exactly when the line has a missing field or an unparsable number. -/
def recordParse (line : List Char) : Option (Nat × Nat × Nat) :=
  match splitOnce ',' line with
  | none => none
  | some (pos, rest2) =>
      match splitOnce ',' rest2 with
      | none => none
      | some (score, millis) =>
          match parseU32 pos, parseU32 score, parseU128 millis with
          | some p, some sc, some mi => some (p, sc, mi)
          | _, _, _ => none

/-- The innermost loop of the history load closure (`lib.rs:125-160`): while
the remainder does not start with a tab, consume one `pos,score,millis` line,
push the parsed record to the back of the current config's bucket, and return
the accumulated map early when the remainder is exactly empty. `Sum.inl` is a
`return` out of the whole closure; `Sum.inr` resumes the enclosing loop. Any
parse failure returns the empty map, as the source's `else return
FxHashMap::default()` branches do. -/
def recordLoop : Nat → Nat → Nat → Nat → Store → List Char →
    Sum Store (Store × List Char)
  | 0, _, _, _, _, _ => Sum.inl []
  | fuel + 1, rows, columns, active, m, s =>
      if startsWith ['\t'] s then Sum.inr (m, s)
      else
        match splitOnce '\n' s with
        | none => Sum.inl []
        | some (record, rem) =>
            match splitOnce ',' record with
            | none => Sum.inl []
            | some (pos, scoreMillis) =>
                match splitOnce ',' scoreMillis with
                | none => Sum.inl []
                | some (score, millis) =>
                    match parseU32 pos, parseU32 score, parseU128 millis with
                    | some p, some sc, some mi =>
                        let m2 := entryPushBack m (rows, columns, active)
                          (Record.new p sc mi rows columns active)
                        if rem = [] then Sum.inl m2
                        else recordLoop fuel rows columns active m2 rem
                    | _, _, _ => Sum.inl []

/-- The `while s.starts_with("\t")` loop of the load closure
(`lib.rs:114-161`): consume an active-count header line (stripping every
leading tab, as `trim_start_matches("\t")` does), then run the record loop. -/
def activeLoop : Nat → Nat → Nat → Store → List Char →
    Sum Store (Store × List Char)
  | 0, _, _, _, _ => Sum.inl []
  | fuel + 1, rows, columns, m, s =>
      if startsWith ['\t'] s then
        match splitOnce '\n' s with
        | none => Sum.inl []
        | some (activeLine, rem) =>
            match parseU32 (trimTabs 1 activeLine) with
            | none => Sum.inl []
            | some active =>
                match recordLoop fuel rows columns active m rem with
                | Sum.inl r => Sum.inl r
                | Sum.inr (m2, s2) => activeLoop fuel rows columns m2 s2
      else Sum.inr (m, s)

/-- The `while s.starts_with("\t\t")` loop of the load closure
(`lib.rs:103-162`): consume a columns header line, then run the active loop. -/
def columnsLoop : Nat → Nat → Store → List Char → Sum Store (Store × List Char)
  | 0, _, _, _ => Sum.inl []
  | fuel + 1, rows, m, s =>
      if startsWith ['\t', '\t'] s then
        match splitOnce '\n' s with
        | none => Sum.inl []
        | some (columnsLine, rem) =>
            match parseU32 (trimTabs 2 columnsLine) with
            | none => Sum.inl []
            | some columns =>
                match activeLoop fuel rows columns m rem with
                | Sum.inl r => Sum.inl r
                | Sum.inr (m2, s2) => columnsLoop fuel rows m2 s2
      else Sum.inr (m, s)

/-- The `while s.starts_with("\t\t\t")` loop of the load closure
(`lib.rs:93-163`): consume a rows header line, then run the columns loop. -/
def rowsLoop : Nat → Store → List Char → Sum Store (Store × List Char)
  | 0, _, _ => Sum.inl []
  | fuel + 1, m, s =>
      if startsWith ['\t', '\t', '\t'] s then
        match splitOnce '\n' s with
        | none => Sum.inl []
        | some (rowsLine, rem) =>
            match parseU32 (trimTabs 3 rowsLine) with
            | none => Sum.inl []
            | some rows =>
                match columnsLoop fuel rows m rem with
                | Sum.inl r => Sum.inl r
                | Sum.inr (m2, s2) => rowsLoop fuel m2 s2
      else Sum.inr (m, s)

/-- Embedding of the history load closure (`lib.rs:82-170`): split off the
version line (no newline at all returns the empty map), dispatch on version
`"1"` (any other version falls through to returning the still-empty map), and
run the nested header loops; a normal exit of the outer loop returns the
accumulated map. -/
def loadHistory (s : List Char) : Store :=
  match splitOnce '\n' s with
  | none => []
  | some (version, rest) =>
      if version = ['1'] then
        match rowsLoop (s.length + 1) [] rest with
        | Sum.inl r => r
        | Sum.inr (m, _) => m
      else []

/-- Decimal digit character. -/
def digitChar (n : Nat) : Char := Char.ofNat (48 + n)

def natCharsAux : Nat → Nat → List Char
  | 0, _ => []
  | fuel + 1, n =>
      if n < 10 then [digitChar n]
      else natCharsAux fuel (n / 10) ++ [digitChar (n % 10)]

/-- Canonical decimal rendering of an unsigned integer, as Rust `Display`
prints `u32`/`u128` in `writeln!`. -/
def natChars (n : Nat) : List Char := natCharsAux (n + 1) n

/-- `history.0().values().for_each(|v| history_vals.extend(v))`: every record
of the store, bucket by bucket. -/
def allRecords : Store → List Record
  | [] => []
  | (_, v) :: rest => v ++ allRecords rest

/-- Stable insertion of a record into a list sorted by `key`: a new record
goes before the first strictly greater key, after equal ones. -/
def insertByKey (key : Record → Nat) (r : Record) : List Record → List Record
  | [] => [r]
  | x :: xs => if key r ≤ key x then r :: x :: xs else x :: insertByKey key r xs

/-- Stable sort by `key`, extensionally the stable `sort_by_key` of Rust. -/
def sortByKey (key : Record → Nat) : List Record → List Record
  | [] => []
  | x :: xs => insertByKey key x (sortByKey key xs)

/-- Rust `NonZeroU32::new`: `none` exactly on zero. -/
def nzNew (n : Nat) : Option Nat := if n = 0 then none else some n

/-- Rust `Option::is_none_or(|v| v.get() != val)` on the `last_*` trackers of
the history save effect. -/
def isNoneOrNe (o : Option Nat) (v : Nat) : Bool :=
  match o with
  | none => true
  | some x => x != v

/-- The body of the `for val in history_vals` loop of the history save effect
(`lib.rs:193-212`): emit a three-tab rows header, two-tab columns header and
one-tab active header whenever the tracked last value differs (resetting the
finer trackers), then the `position,score,millis` record line. The trackers
are `Option NonZeroU32`, so a zero value never registers as seen. -/
def renderVals : List Record → Option Nat → Option Nat → Option Nat → List Char
  | [], _, _, _ => []
  | val :: rest, lastRows, lastColumns, lastActive =>
      let s1 := if isNoneOrNe lastRows val.rows then
          ['\t', '\t', '\t'] ++ natChars val.rows ++ ['\n'] else []
      let lastRows2 := if isNoneOrNe lastRows val.rows then nzNew val.rows else lastRows
      let lastColumns2 := if isNoneOrNe lastRows val.rows then none else lastColumns
      let lastActive2 := if isNoneOrNe lastRows val.rows then none else lastActive
      let s2 := if isNoneOrNe lastColumns2 val.columns then
          ['\t', '\t'] ++ natChars val.columns ++ ['\n'] else []
      let lastColumns3 := if isNoneOrNe lastColumns2 val.columns then
          nzNew val.columns else lastColumns2
      let lastActive3 := if isNoneOrNe lastColumns2 val.columns then
          none else lastActive2
      let s3 := if isNoneOrNe lastActive3 val.active then
          ['\t'] ++ natChars val.active ++ ['\n'] else []
      let lastActive4 := if isNoneOrNe lastActive3 val.active then
          nzNew val.active else lastActive3
      let line := natChars val.position ++ [','] ++ natChars val.score ++ [','] ++
        natChars val.millis ++ ['\n']
      s1 ++ s2 ++ s3 ++ line ++ renderVals rest lastRows2 lastColumns3 lastActive4

/-- Embedding of the history save effect (`lib.rs:178-216`): a `1` version
line, then — when any records exist — all records stably sorted by active,
then columns, then rows (making rows the primary key), rendered with
deduplicated headers. -/
def saveHistory (m : Store) : List Char :=
  let vals := allRecords m
  ['1', '\n'] ++
    (if vals = [] then []
     else renderVals
       (sortByKey Record.rows (sortByKey Record.columns (sortByKey Record.active vals)))
       none none none)

/-- Embedding of the `on:change` handler of `U32Input` (`lib.rs:319-324`),
restricted to the new signal value: the typed text parsed as `u32`, falling
back to the prior signal value when parsing fails. -/
def u32InputChange (text : List Char) (prior : Nat) : Nat :=
  (parseU32 text).getD prior

/-- Embedding of `max_active` (`lib.rs:265`): `rows * columns - 1` in
wrapping `u32` arithmetic. -/
def max_active (rows columns : Nat) : Nat := u32Sub (u32Mul rows columns) 1

/-- Which grid dimension input fired its `on:change` handler. -/
inductive ConfigField
  | rows
  | columns
  | active

/-- The `Root`-level state touched by a grid-config change: the three config
signals, the active set, the current run's score, and the history store. -/
structure RootState where
  rows : Nat
  columns : Nat
  active : Nat
  current : List Position
  score : Nat
  history : Store
deriving DecidableEq, Repr

/-- Embedding of a full reconfigure step (`lib.rs:319-324`): set the edited
signal from the typed text (keeping the prior value on a parse failure),
clear the active set, and run the `onchange` callback `update_current`, which
resamples for the new dimensions. Nothing else in the handler is touched: in
particular neither the current record's score nor the history store. -/
def reconfigure (f : ConfigField) (text : List Char) (props : List Position)
    (st : RootState) : Option RootState :=
  let st1 := match f with
    | ConfigField.rows => { st with rows := u32InputChange text st.rows }
    | ConfigField.columns => { st with columns := u32InputChange text st.columns }
    | ConfigField.active => { st with active := u32InputChange text st.active }
  (update_current st1.rows st1.columns st1.active props).map
    (fun cur => { st1 with current := cur })

/-- A well-formed two-config history whose configs share rows but differ in
columns: bucket `(2,2,1)` holds one record with score 2, bucket `(2,3,1)`
holds one record with score 3. -/
def c1Store : Store :=
  [((2, 2, 1), [Record.new 1 2 100 2 2 1]),
   ((2, 3, 1), [Record.new 1 3 200 2 3 1])]

/-- A well-formed two-config history whose configs share rows and columns and
differ only in active. -/
def cActiveStore : Store :=
  [((3, 3, 1), [Record.new 1 2 100 3 3 1]),
   ((3, 3, 2), [Record.new 1 3 200 3 3 2])]

/-- A root state mid-run: 3×3 grid with 2 active cells, current score 5, one
recorded run in history. -/
def c2State : RootState :=
  { rows := 3, columns := 3, active := 2, current := [(0, 0), (1, 1)], score := 5,
    history := [((3, 3, 2), [Record.new 1 4 900 3 3 2])] }

/-- The state `c2State` after its rows input is changed to `4` (the active
set resampled from the proposal stream `[(0,0),(1,1)]`). -/
def c2Reconfigured : RootState :=
  { rows := 4, columns := 3, active := 2, current := [(1, 1), (0, 0)], score := 5,
    history := [((3, 3, 2), [Record.new 1 4 900 3 3 2])] }

/-- Little-endian rendering of a `w`-byte unsigned integer (Rust
`to_le_bytes`), bytes as `Nat` values below 256. -/
def toLE : Nat → Nat → List Nat
  | 0, _ => []
  | w + 1, n => n % 256 :: toLE w (n / 256)

/-- Little-endian reading of a byte list (Rust `from_le_bytes`). -/
def fromLE : List Nat → Nat
  | [] => 0
  | b :: bs => b + 256 * fromLE bs

/-- The byte image of a record built by `Record::to_string`
(`record.rs:57-63`): position, score, millis, rows, columns, active, each
little-endian, 4 + 4 + 16 + 4 + 4 + 4 = 36 bytes. -/
def Record.to_bytes (r : Record) : List Nat :=
  toLE 4 r.position ++ (toLE 4 r.score ++ (toLE 16 r.millis ++
    (toLE 4 r.rows ++ (toLE 4 r.columns ++ toLE 4 r.active))))

/-- Embedding of `Record::from_bytes` (`record.rs:33-46`): `none` unless the
slice is exactly 36 bytes, otherwise the six fields read back at their fixed
offsets. -/
def Record.from_bytes (bs : List Nat) : Option Record :=
  if bs.length = 36 then
    some (Record.new (fromLE (bs.take 4)) (fromLE ((bs.drop 4).take 4))
      (fromLE ((bs.drop 8).take 16)) (fromLE ((bs.drop 24).take 4))
      (fromLE ((bs.drop 28).take 4)) (fromLE ((bs.drop 32).take 4)))
  else none

/-- Character of a base64 sextet in the standard alphabet. -/
def sextetChar (n : Nat) : Char :=
  if n < 26 then Char.ofNat (65 + n)
  else if n < 52 then Char.ofNat (97 + (n - 26))
  else if n < 62 then Char.ofNat (48 + (n - 52))
  else if n = 62 then '+'
  else '/'

/-- Sextet of a standard-alphabet base64 character, `none` outside the
alphabet (in particular for the padding character). -/
def sextetVal (c : Char) : Option Nat :=
  if 'A' ≤ c ∧ c ≤ 'Z' then some (c.toNat - 65)
  else if 'a' ≤ c ∧ c ≤ 'z' then some (c.toNat - 97 + 26)
  else if '0' ≤ c ∧ c ≤ '9' then some (c.toNat - 48 + 52)
  else if c = '+' then some 62
  else if c = '/' then some 63
  else none

/-- Unpadded standard base64 encoding of a byte list (the
`BASE64_STANDARD_NO_PAD.encode` of the base64 crate): three bytes to four
sextets, with two- and one-byte tails shortened to three and two characters
and no padding. -/
def b64encode : List Nat → List Char
  | b1 :: b2 :: b3 :: rest =>
      let n := (b1 * 256 + b2) * 256 + b3
      sextetChar (n / 262144 % 64) :: sextetChar (n / 4096 % 64) ::
        sextetChar (n / 64 % 64) :: sextetChar (n % 64) :: b64encode rest
  | [b1, b2] =>
      let n := b1 * 256 + b2
      [sextetChar (n / 1024), sextetChar (n / 16 % 64), sextetChar (n % 16 * 4)]
  | [b1] => [sextetChar (b1 / 4), sextetChar (b1 % 4 * 16)]
  | [] => []

/-- Unpadded standard base64 decoding (the `BASE64_STANDARD_NO_PAD.decode`
of the base64 crate): four sextets to three bytes, tails of three and two
characters to two and one bytes with the unused trailing bits required to be
zero, a tail of one character (length ≡ 1 mod 4) rejected. -/
def b64decode : List Char → Option (List Nat)
  | [] => some []
  | [_] => none
  | [c1, c2] =>
      match sextetVal c1, sextetVal c2 with
      | some s1, some s2 =>
          let n := s1 * 64 + s2
          if n % 16 = 0 then some [n / 16] else none
      | _, _ => none
  | [c1, c2, c3] =>
      match sextetVal c1, sextetVal c2, sextetVal c3 with
      | some s1, some s2, some s3 =>
          let n := (s1 * 64 + s2) * 64 + s3
          if n % 4 = 0 then some [n / 1024, n / 4 % 256] else none
      | _, _, _ => none
  | c1 :: c2 :: c3 :: c4 :: rest =>
      match sextetVal c1, sextetVal c2, sextetVal c3, sextetVal c4 with
      | some s1, some s2, some s3, some s4 =>
          let n := ((s1 * 64 + s2) * 64 + s3) * 64 + s4
          match b64decode rest with
          | some bs => some (n / 65536 :: n / 256 % 256 :: n % 256 :: bs)
          | none => none
      | _, _, _, _ => none

/-- Embedding of `Record::to_string` (`record.rs:56-66`): the unpadded
standard base64 encoding of the record's 36-byte little-endian image. -/
def Record.to_string (r : Record) : List Char := b64encode r.to_bytes

/-- Embedding of `Record::from_str` (`record.rs:48-54`): base64-decode, then
read the bytes back. -/
def Record.from_str (s : List Char) : Option Record :=
  (b64decode s).bind Record.from_bytes

theorem lookupStore_setStore_self (h : Store) (k : GridConfig) (v : List Record) :
    lookupStore (setStore h k v) k = some v := by
  induction h with
  | nil => simp [setStore, lookupStore]
  | cons kv rest ih =>
      by_cases hk : kv.1 = k
      · simp [setStore, hk, lookupStore]
      · simp [setStore, hk, lookupStore, ih]

theorem lookupStore_setStore_ne (h : Store) (k k2 : GridConfig) (v : List Record)
    (hne : k2 ≠ k) : lookupStore (setStore h k v) k2 = lookupStore h k2 := by
  induction h with
  | nil => simp [setStore, lookupStore, hne, Ne.symm hne]
  | cons kv rest ih =>
      by_cases hk : kv.1 = k
      · subst hk
        simp [setStore, lookupStore, hne, Ne.symm hne]
      · simp [setStore, hk, lookupStore, ih]

theorem beats_refl (a : Record) : beats a a := ⟨le_refl _, fun _ => le_refl _⟩

theorem beats_trans {a b c : Record} (hab : beats a b) (hbc : beats b c) :
    beats a c := by
  obtain ⟨hs1, hm1⟩ := hab
  obtain ⟨hs2, hm2⟩ := hbc
  refine ⟨le_trans hs2 hs1, fun hce => ?_⟩
  have hbe : b.score = a.score := le_antisymm hs1 (hce ▸ hs2)
  exact le_trans (hm1 hbe) (hm2 (hce ▸ hbe.symm ▸ rfl))

theorem cmpRecord_gt_iff (a b : Record) :
    cmpRecord a b = Ordering.gt ↔
      b.score < a.score ∨ (a.score = b.score ∧ a.millis < b.millis) := by
  unfold cmpRecord
  rcases Nat.lt_trichotomy a.score b.score with h | h | h
  · rw [Nat.compare_eq_lt.mpr h]
    simp [Nat.lt_asymm h, Nat.ne_of_lt h]
  · rw [Nat.compare_eq_eq.mpr h]
    show compare b.millis a.millis = Ordering.gt ↔ _
    constructor
    · intro hgt
      exact Or.inr ⟨h, Nat.compare_eq_gt.mp hgt⟩
    · rintro (hlt | ⟨_, hm⟩)
      · exact absurd h.symm (Nat.ne_of_lt hlt)
      · exact Nat.compare_eq_gt.mpr hm
  · rw [Nat.compare_eq_gt.mpr h]
    simp [h]

theorem maxStep_beats_left (a b : Record) : beats (maxStep a b) a := by
  unfold maxStep
  by_cases h : cmpRecord a b = Ordering.gt
  · simp [h, beats_refl]
  · simp only [h, if_false]
    rcases Nat.lt_trichotomy a.score b.score with hs | hs | hs
    · exact ⟨Nat.le_of_lt hs, fun he => absurd he (Nat.ne_of_lt hs)⟩
    · refine ⟨le_of_eq hs, fun _ => ?_⟩
      by_contra hm
      exact h ((cmpRecord_gt_iff a b).mpr (Or.inr ⟨hs, Nat.lt_of_not_le hm⟩))
    · exact absurd ((cmpRecord_gt_iff a b).mpr (Or.inl hs)) h

theorem maxStep_beats_right (a b : Record) : beats (maxStep a b) b := by
  unfold maxStep
  by_cases h : cmpRecord a b = Ordering.gt
  · simp only [h, if_true]
    rcases (cmpRecord_gt_iff a b).mp h with hs | ⟨hs, hm⟩
    · exact ⟨Nat.le_of_lt hs, fun he => absurd he (Nat.ne_of_lt hs)⟩
    · exact ⟨le_of_eq hs.symm, fun _ => Nat.le_of_lt hm⟩
  · simp [h, beats_refl]

theorem maxStep_mem (a b : Record) : maxStep a b = a ∨ maxStep a b = b := by
  unfold maxStep
  by_cases h : cmpRecord a b = Ordering.gt <;> simp [h]

theorem foldl_maxStep_spec (l : List Record) :
    ∀ acc : Record, l.foldl maxStep acc ∈ acc :: l ∧
      ∀ r ∈ acc :: l, beats (l.foldl maxStep acc) r := by
  induction l with
  | nil =>
      intro acc
      refine ⟨List.mem_singleton.mpr rfl, ?_⟩
      intro r hr
      rw [List.mem_singleton.mp hr]
      exact beats_refl _
  | cons x xs ih =>
      intro acc
      obtain ⟨hmem, hdom⟩ := ih (maxStep acc x)
      constructor
      · simp only [List.foldl_cons]
        rcases List.mem_cons.mp hmem with he | hxs
        · rw [he]
          rcases maxStep_mem acc x with h1 | h1
          · rw [h1]; exact List.mem_cons_self _ _
          · rw [h1]; exact List.mem_cons_of_mem _ (List.mem_cons_self _ _)
        · exact List.mem_cons_of_mem _ (List.mem_cons_of_mem _ hxs)
      · intro r hr
        simp only [List.foldl_cons]
        rcases List.mem_cons.mp hr with he | hr2
        · rw [he]
          exact beats_trans (hdom _ (List.mem_cons_self _ _))
            (maxStep_beats_left acc x)
        · rcases List.mem_cons.mp hr2 with he2 | hr3
          · rw [he2]
            exact beats_trans (hdom _ (List.mem_cons_self _ _))
              (maxStep_beats_right acc x)
          · exact hdom r (List.mem_cons_of_mem _ hr3)

/-- Claim C3: on the miss transition, a record is added to history if and only
if the run's score at miss time is greater than 1; when added it carries the
run's score and millis, its position is the number of existing entries in the
current grid config's bucket plus 1, and it is prepended to the front of that
bucket with all other buckets unchanged; in every case the score is reset
to 0. -/
theorem game_over_spec (rows columns active score millis : Nat) (h : Store) :
    (game_over rows columns active score millis h).2 = 0 ∧
    (1 < score →
      lookupStore (game_over rows columns active score millis h).1
          (rows, columns, active) =
        some (Record.new (((lookupStore h (rows, columns, active)).getD []).length + 1)
            score millis rows columns active ::
          (lookupStore h (rows, columns, active)).getD []) ∧
      ∀ k2 : GridConfig, k2 ≠ (rows, columns, active) →
        lookupStore (game_over rows columns active score millis h).1 k2 =
          lookupStore h k2) ∧
    (score ≤ 1 → (game_over rows columns active score millis h).1 = h) := by
  by_cases hs : 1 < score
  · have hgo : game_over rows columns active score millis h =
        (setStore h (rows, columns, active)
          (Record.new (((lookupStore h (rows, columns, active)).getD []).length + 1)
              score millis rows columns active ::
            (lookupStore h (rows, columns, active)).getD []), 0) := by
      unfold game_over
      rw [if_pos hs]
    rw [hgo]
    exact ⟨rfl,
      fun _ => ⟨lookupStore_setStore_self h (rows, columns, active) _,
        fun k2 hk2 => lookupStore_setStore_ne h (rows, columns, active) k2 _ hk2⟩,
      fun hle => absurd hs (Nat.not_lt.mpr hle)⟩
  · have hgo : game_over rows columns active score millis h = (h, 0) := by
      unfold game_over
      rw [if_neg hs]
    rw [hgo]
    exact ⟨rfl, fun hgt => absurd hgt hs, fun _ => rfl⟩

theorem game_over_spec_witness :
    lookupStore (game_over 3 3 2 4 1000 []).1 (3, 3, 2) =
      some [Record.new 1 4 1000 3 3 2] :=
  ((game_over_spec 3 3 2 4 1000 []).2.1 (by decide)).1

/-- Claim C4: for every current record and history bucket, the displayed best
record is a member of the set consisting of the in-progress run's record and
the bucket records, and it dominates every member of that set by score
descending with millis ascending as the tie break; in particular among records
with scores 5, 5, 3 and millis 200, 100, 50 the best is the one with score 5
and millis 100. -/
theorem best_record_spec :
    (∀ (current : Record) (bucket : List Record),
      best_record current bucket ∈ current :: bucket ∧
      ∀ r ∈ current :: bucket, beats (best_record current bucket) r) ∧
    best_record (Record.new 1 5 200 3 3 2)
        [Record.new 2 5 100 3 3 2, Record.new 3 3 50 3 3 2] =
      Record.new 2 5 100 3 3 2 := by
  refine ⟨fun current bucket => foldl_maxStep_spec bucket current, ?_⟩
  decide

theorem best_record_spec_witness :
    beats (best_record (Record.new 1 5 200 3 3 2) [Record.new 2 5 100 3 3 2])
      (Record.new 1 5 200 3 3 2) :=
  (best_record_spec.1 (Record.new 1 5 200 3 3 2) [Record.new 2 5 100 3 3 2]).2
    (Record.new 1 5 200 3 3 2) (List.mem_cons_self _ _)

theorem resampleAux_spec (target : Nat) (P : Position → Prop) :
    ∀ (props : List Position) (acc s : List Position),
      resampleAux target props acc = some s →
      acc.length ≤ target → acc.Nodup → (∀ p ∈ props, P p) → (∀ q ∈ acc, P q) →
      s.length = target ∧ s.Nodup ∧ ∀ q ∈ s, P q := by
  intro props
  induction props with
  | nil =>
      intro acc s hres hle hnd _ hacc
      unfold resampleAux at hres
      by_cases hlt : acc.length < target
      · simp [hlt] at hres
      · simp only [hlt, if_false, Option.some.injEq] at hres
        subst hres
        exact ⟨Nat.le_antisymm hle (Nat.not_lt.mp hlt), hnd, hacc⟩
  | cons p rest ih =>
      intro acc s hres hle hnd hprops hacc
      unfold resampleAux at hres
      by_cases hlt : acc.length < target
      · simp only [hlt, if_true] at hres
        by_cases hp : p ∈ acc
        · simp only [hp, if_true] at hres
          exact ih acc s hres hle hnd
            (fun q hq => hprops q (List.mem_cons_of_mem _ hq)) hacc
        · simp only [hp, if_false] at hres
          refine ih (p :: acc) s hres (by simpa using hlt)
            (List.nodup_cons.mpr ⟨hp, hnd⟩)
            (fun q hq => hprops q (List.mem_cons_of_mem _ hq)) ?_
          intro q hq
          rcases List.mem_cons.mp hq with he | hq2
          · exact he ▸ hprops p (List.mem_cons_self _ _)
          · exact hacc q hq2
      · simp only [hlt, if_false, Option.some.injEq] at hres
        subst hres
        exact ⟨Nat.le_antisymm hle (Nat.not_lt.mp hlt), hnd, hacc⟩

/-- Claim C5: for every `(rows, columns, active)` with `rows * columns ≥ 2`
(and the product within `u32` range), a completed full resample yields a set
of exactly `min active (rows * columns - 1)` distinct positions, each with row
below `rows` and column below `columns`, provided every proposal drawn from
the generator is in bounds (which `rng.random_range(0..rows)` and
`rng.random_range(0..columns)` guarantee). -/
theorem update_current_spec (rows columns active : Nat) (props : List Position)
    (s : List Position) (hge : 2 ≤ rows * columns)
    (hlt : rows * columns < 4294967296)
    (hprops : ∀ p ∈ props, p.1 < rows ∧ p.2 < columns)
    (hres : update_current rows columns active props = some s) :
    s.length = min active (rows * columns - 1) ∧ s.Nodup ∧
    ∀ p ∈ s, p.1 < rows ∧ p.2 < columns := by
  have hclamp : u32Sub (u32Mul columns rows) 1 = rows * columns - 1 := by
    unfold u32Sub u32Mul
    rw [Nat.mul_comm columns rows]
    generalize rows * columns = m at hge hlt ⊢
    omega
  unfold update_current at hres
  rw [hclamp] at hres
  exact resampleAux_spec _ _ props [] s hres (by simp) List.nodup_nil hprops (by simp)

theorem update_current_spec_witness :
    update_current 2 2 2 [(0, 0), (0, 1)] = some [(0, 1), (0, 0)] ∧
    ([((0 : Nat), (1 : Nat)), (0, 0)].length = min 2 (2 * 2 - 1) ∧
      [((0 : Nat), (1 : Nat)), (0, 0)].Nodup) :=
  ⟨by decide,
    ⟨(update_current_spec 2 2 2 [(0, 0), (0, 1)] [(0, 1), (0, 0)]
        (by decide) (by decide) (by decide) (by decide)).1,
      (update_current_spec 2 2 2 [(0, 0), (0, 1)] [(0, 1), (0, 0)]
        (by decide) (by decide) (by decide) (by decide)).2.1⟩⟩

theorem sampleExcluding_not_mem (cur : List Position) :
    ∀ (props : List Position) (n : Position),
      sampleExcluding cur props = some n → n ∉ cur := by
  intro props
  induction props with
  | nil => intro n h; simp [sampleExcluding] at h
  | cons p rest ih =>
      intro n h
      unfold sampleExcluding at h
      by_cases hp : p ∈ cur
      · simp only [hp, if_true] at h
        exact ih n h
      · simp only [hp, if_false, Option.some.injEq] at h
        exact h ▸ hp

/-- Claim C6: for every duplicate-free active set and every completed hit on a
cell it contains, the post-hit active set has the same cardinality and is
still duplicate-free, and the single freshly sampled replacement is distinct
from every pre-hit active position, including the just-vacated cell itself. -/
theorem onInputHit_spec (cur : List Position) (rc : Position)
    (props : List Position) (cur' : List Position)
    (hnd : cur.Nodup) (hres : onInputHit cur rc props = some cur') :
    cur'.length = cur.length ∧ cur'.Nodup ∧
    ∃ n, n ∉ cur ∧ n ≠ rc ∧ cur' = n :: cur.erase rc := by
  unfold onInputHit at hres
  by_cases hrc : rc ∈ cur
  · simp only [hrc, if_true] at hres
    cases hn : sampleExcluding cur props with
    | none => rw [hn] at hres; simp at hres
    | some n =>
        rw [hn] at hres
        simp only [Option.map_some', Option.some.injEq] at hres
        have hnotmem : n ∉ cur := sampleExcluding_not_mem cur props n hn
        have hne : n ≠ rc := fun he => hnotmem (he ▸ hrc)
        have hnoterase : n ∉ cur.erase rc := fun hmem =>
          hnotmem (List.mem_of_mem_erase hmem)
        have hpos : 1 ≤ cur.length := List.length_pos.mpr
          (List.ne_nil_of_mem hrc)
        refine ⟨?_, ?_, n, hnotmem, hne, hres.symm⟩
        · rw [← hres]
          simp only [List.length_cons, List.length_erase_of_mem hrc]
          omega
        · rw [← hres]
          exact List.nodup_cons.mpr ⟨hnoterase, List.Nodup.erase rc hnd⟩
  · simp [hrc] at hres

theorem onInputHit_spec_witness :
    onInputHit [(0, 0)] (0, 0) [(0, 0), (1, 1)] = some [(1, 1)] ∧
    [((1 : Nat), (1 : Nat))].length = [((0 : Nat), (0 : Nat))].length :=
  ⟨by decide,
    (onInputHit_spec [(0, 0)] (0, 0) [(0, 0), (1, 1)] [(1, 1)]
      (by decide) (by decide)).1⟩

theorem splitOnce_eq_none (c : Char) (s : List Char) (h : c ∉ s) :
    splitOnce c s = none := by
  induction s with
  | nil => rfl
  | cons x xs ih =>
      unfold splitOnce
      have hx : ¬x = c := fun he => h (List.mem_cons.mpr (Or.inl he.symm))
      rw [if_neg hx, ih (fun hm => h (List.mem_cons_of_mem _ hm))]
      rfl

theorem splitOnce_append (c : Char) (v rest : List Char) (h : c ∉ v) :
    splitOnce c (v ++ c :: rest) = some (v, rest) := by
  induction v with
  | nil => simp [splitOnce]
  | cons x xs ih =>
      have hx : ¬x = c := fun he => h (List.mem_cons.mpr (Or.inl he.symm))
      simp only [List.cons_append]
      unfold splitOnce
      rw [if_neg hx, ih (fun hm => h (List.mem_cons_of_mem _ hm))]
      rfl

/-- Claim C1 is violated by the code: saving `c1Store` (two configs sharing
rows 2 but with columns 2 and 3) and loading the result does not restore it.
The load closure's `while s.starts_with("\t")` active loop never returns to
the columns loop, and `trim_start_matches("\t")` strips every tab, so the
second columns header `\t\t3` is consumed as an active line; the records of
config `(2,3,1)` are pushed into bucket `(2,2,1)` with a corrupted
`columns = 2` field, and the `(2,3,1)` key is absent from the loaded store. -/
theorem history_roundtrip_violation :
    saveHistory c1Store =
      ("1\n\t\t\t2\n\t\t2\n\t1\n1,2,100\n\t\t3\n\t1\n1,3,200\n".data) ∧
    loadHistory (saveHistory c1Store) =
      [((2, 2, 1), [Record.new 1 2 100 2 2 1, Record.new 1 3 200 2 2 1])] ∧
    lookupStore (loadHistory (saveHistory c1Store)) (2, 3, 1) = none ∧
    lookupStore c1Store (2, 3, 1) = some [Record.new 1 3 200 2 3 1] ∧
    loadHistory (saveHistory c1Store) ≠ c1Store := by
  refine ⟨by decide, by decide, by decide, by decide, by decide⟩

/-- In contrast to `history_roundtrip_violation`, the round-trip does hold
when all configs share rows and columns and differ only in active, because
only the one-tab active headers recur and the active loop parses those
correctly. -/
theorem history_roundtrip_active_only :
    loadHistory (saveHistory cActiveStore) = cActiveStore := by decide

theorem recordLoop_line_fail (fuel rows columns active : Nat) (m : Store)
    (line rem : List Char)
    (hns : startsWith ['\t'] (line ++ '\n' :: rem) = false)
    (hnl : '\n' ∉ line)
    (hfail : recordParse line = none) :
    recordLoop fuel rows columns active m (line ++ '\n' :: rem) = Sum.inl [] := by
  cases fuel with
  | zero => rfl
  | succ fuel =>
      have hns' : ¬ startsWith ['\t'] (line ++ '\n' :: rem) = true := by
        simp [hns]
      simp only [recordLoop, if_neg hns', splitOnce_append '\n' line rem hnl]
      cases h1 : splitOnce ',' line with
      | none => simp only [h1]
      | some pr =>
          obtain ⟨pos, sm⟩ := pr
          simp only [recordParse, h1] at hfail
          simp only [h1]
          cases h2 : splitOnce ',' sm with
          | none => simp only [h2]
          | some pr2 =>
              obtain ⟨sco, mil⟩ := pr2
              simp only [h2] at hfail
              simp only [h2]
              rcases h3 : parseU32 pos with _ | p <;>
                rcases h4 : parseU32 sco with _ | sc <;>
                rcases h5 : parseU128 mil with _ | mi <;>
                (simp only [h3, h4, h5] at hfail ⊢; try rfl)
              exact absurd hfail (by simp)

theorem activeLoop_header_fail (fuel rows columns : Nat) (m : Store)
    (line rem : List Char)
    (hts : startsWith ['\t'] (line ++ '\n' :: rem) = true)
    (hnl : '\n' ∉ line)
    (hparse : parseU32 (trimTabs 1 line) = none) :
    activeLoop fuel rows columns m (line ++ '\n' :: rem) = Sum.inl [] := by
  cases fuel with
  | zero => rfl
  | succ fuel =>
      simp only [activeLoop, if_pos hts, splitOnce_append '\n' line rem hnl, hparse]

theorem columnsLoop_header_fail (fuel rows : Nat) (m : Store)
    (line rem : List Char)
    (hts : startsWith ['\t', '\t'] (line ++ '\n' :: rem) = true)
    (hnl : '\n' ∉ line)
    (hparse : parseU32 (trimTabs 2 line) = none) :
    columnsLoop fuel rows m (line ++ '\n' :: rem) = Sum.inl [] := by
  cases fuel with
  | zero => rfl
  | succ fuel =>
      simp only [columnsLoop, if_pos hts, splitOnce_append '\n' line rem hnl, hparse]

theorem rowsLoop_header_fail (fuel : Nat) (m : Store) (line rem : List Char)
    (hts : startsWith ['\t', '\t', '\t'] (line ++ '\n' :: rem) = true)
    (hnl : '\n' ∉ line)
    (hparse : parseU32 (trimTabs 3 line) = none) :
    rowsLoop fuel m (line ++ '\n' :: rem) = Sum.inl [] := by
  cases fuel with
  | zero => rfl
  | succ fuel =>
      simp only [rowsLoop, if_pos hts, splitOnce_append '\n' line rem hnl, hparse]

theorem loadHistory_version1_inl (rest : List Char)
    (h : rowsLoop (rest.length + 3) [] rest = Sum.inl []) :
    loadHistory ('1' :: '\n' :: rest) = [] := by
  have e : splitOnce '\n' ('1' :: '\n' :: rest) = some (['1'], rest) := by
    simp [splitOnce, (show ('1' : Char) ≠ '\n' by decide)]
  simp only [loadHistory, e, List.length_cons]
  rw [if_pos trivial]
  have hf : rest.length + 1 + 1 + 1 = rest.length + 3 := by omega
  rw [hf, h]

/-- Claim C7: loading malformed stored history fails soft and wholesale. A
string with no newline (so no version line) loads as the empty store, and so
does every string whose version line is not `1`. For every parser state
whatsoever — any accumulated store `m`, any current headers, any fuel, any
remainder — a record line with a missing field or an unparsable number
(`recordParse line = none`) makes the record loop return the empty store,
discarding everything accumulated so far, and an active, columns or rows
header line whose number does not parse does the same in its loop; an
empty-store early return of the outer loop is exactly what `loadHistory`
returns. Concretely, stored strings whose first record parses and whose next
line then has a missing field or an unparsable number load as the empty
store, as do the field- and number-malformed single-record strings. Every
error path of the model returns a value (the function is total), mirroring
the closure's `return` statements, so no parse error escapes. -/
theorem loadHistory_malformed :
    (∀ s : List Char, '\n' ∉ s → loadHistory s = []) ∧
    (∀ v rest : List Char, '\n' ∉ v → v ≠ ['1'] →
      loadHistory (v ++ '\n' :: rest) = []) ∧
    (∀ (fuel rows columns active : Nat) (m : Store) (line rem : List Char),
      startsWith ['\t'] (line ++ '\n' :: rem) = false → '\n' ∉ line →
      recordParse line = none →
      recordLoop fuel rows columns active m (line ++ '\n' :: rem) = Sum.inl []) ∧
    (∀ (fuel rows columns : Nat) (m : Store) (line rem : List Char),
      startsWith ['\t'] (line ++ '\n' :: rem) = true → '\n' ∉ line →
      parseU32 (trimTabs 1 line) = none →
      activeLoop fuel rows columns m (line ++ '\n' :: rem) = Sum.inl []) ∧
    (∀ (fuel rows : Nat) (m : Store) (line rem : List Char),
      startsWith ['\t', '\t'] (line ++ '\n' :: rem) = true → '\n' ∉ line →
      parseU32 (trimTabs 2 line) = none →
      columnsLoop fuel rows m (line ++ '\n' :: rem) = Sum.inl []) ∧
    (∀ (fuel : Nat) (m : Store) (line rem : List Char),
      startsWith ['\t', '\t', '\t'] (line ++ '\n' :: rem) = true → '\n' ∉ line →
      parseU32 (trimTabs 3 line) = none →
      rowsLoop fuel m (line ++ '\n' :: rem) = Sum.inl []) ∧
    (∀ rest : List Char, rowsLoop (rest.length + 3) [] rest = Sum.inl [] →
      loadHistory ('1' :: '\n' :: rest) = []) ∧
    loadHistory ("1\n\t\t\t3\n\t\t3\n\t2\n1,5,100\n2,6\n".data) = [] ∧
    loadHistory ("1\n\t\t\t3\n\t\t3\n\t2\n1,5,100\n2,6,zz\n".data) = [] ∧
    loadHistory ("1\n\t\t\t3\n\t\t3\n\t2\n1,5\n".data) = [] ∧
    loadHistory ("1\n\t\t\t3\n\t\t3\n\t2\nx,5,100\n".data) = [] := by
  refine ⟨?_, ?_,
    fun fuel rows columns active m line rem h1 h2 h3 =>
      recordLoop_line_fail fuel rows columns active m line rem h1 h2 h3,
    fun fuel rows columns m line rem h1 h2 h3 =>
      activeLoop_header_fail fuel rows columns m line rem h1 h2 h3,
    fun fuel rows m line rem h1 h2 h3 =>
      columnsLoop_header_fail fuel rows m line rem h1 h2 h3,
    fun fuel m line rem h1 h2 h3 =>
      rowsLoop_header_fail fuel m line rem h1 h2 h3,
    fun rest h => loadHistory_version1_inl rest h,
    by decide, by decide, by decide, by decide⟩
  · intro s h
    unfold loadHistory
    rw [splitOnce_eq_none '\n' s h]
  · intro v rest hnl hne
    unfold loadHistory
    rw [splitOnce_append '\n' v rest hnl]
    simp [hne]

theorem loadHistory_malformed_witness :
    loadHistory ['1'] = [] ∧
    loadHistory ('2' :: '\n' :: 'x' :: []) = [] ∧
    recordLoop 9 3 3 2 [((3, 3, 2), [Record.new 1 5 100 3 3 2])]
        ('2' :: ',' :: '6' :: '\n' :: []) = Sum.inl [] ∧
    activeLoop 9 3 3 [((3, 3, 2), [Record.new 1 5 100 3 3 2])]
        ('\t' :: 'x' :: '\n' :: []) = Sum.inl [] ∧
    columnsLoop 9 3 [((3, 3, 2), [Record.new 1 5 100 3 3 2])]
        ('\t' :: '\t' :: 'x' :: '\n' :: []) = Sum.inl [] ∧
    rowsLoop 9 [((3, 3, 2), [Record.new 1 5 100 3 3 2])]
        ('\t' :: '\t' :: '\t' :: 'x' :: '\n' :: []) = Sum.inl [] ∧
    loadHistory ('1' :: '\n' :: '\t' :: '\t' :: '\t' :: 'x' :: '\n' :: []) = [] :=
  ⟨loadHistory_malformed.1 ['1'] (by decide),
    loadHistory_malformed.2.1 ['2'] ['x'] (by decide) (by decide),
    loadHistory_malformed.2.2.1 9 3 3 2 [((3, 3, 2), [Record.new 1 5 100 3 3 2])]
      ['2', ',', '6'] [] (by decide) (by decide) (by decide),
    loadHistory_malformed.2.2.2.1 9 3 3 [((3, 3, 2), [Record.new 1 5 100 3 3 2])]
      ['\t', 'x'] [] (by decide) (by decide) (by decide),
    loadHistory_malformed.2.2.2.2.1 9 3 [((3, 3, 2), [Record.new 1 5 100 3 3 2])]
      ['\t', '\t', 'x'] [] (by decide) (by decide) (by decide),
    loadHistory_malformed.2.2.2.2.2.1 9 [((3, 3, 2), [Record.new 1 5 100 3 3 2])]
      ['\t', '\t', '\t', 'x'] [] (by decide) (by decide) (by decide),
    loadHistory_malformed.2.2.2.2.2.2.1 ('\t' :: '\t' :: '\t' :: 'x' :: '\n' :: [])
      (by decide)⟩

/-- Claim C2 as stated is false on the code: reconfiguring the rows input of
`c2State` (score 5) to `4` leaves the score at 5; the `on:change` handler and
its `update_current` callback never touch the current record, so the score is
not reset to 0. -/
theorem reconfigure_score_counterexample :
    (reconfigure ConfigField.rows ['4'] [(0, 0), (1, 1)] c2State).map RootState.score
        = some 5 ∧
    (reconfigure ConfigField.rows ['4'] [(0, 0), (1, 1)] c2State).map RootState.score
        ≠ some 0 := by
  refine ⟨by decide, by decide⟩

/-- Claim C2 amended: a completed reconfigure through a grid-config input
replaces the active set with a fresh resample for the new dimensions and
leaves the history store unchanged, but does not reset the current run's
score — the score is preserved. -/
theorem reconfigure_spec (f : ConfigField) (text : List Char)
    (props : List Position) (st st' : RootState)
    (h : reconfigure f text props st = some st') :
    st'.score = st.score ∧ st'.history = st.history ∧
    update_current st'.rows st'.columns st'.active props = some st'.current := by
  cases f with
  | rows =>
      cases hu : update_current (u32InputChange text st.rows) st.columns st.active
          props with
      | none => simp [reconfigure, hu] at h
      | some cur =>
          simp only [reconfigure, Option.map_some', Option.some.injEq, hu] at h
          subst h
          exact ⟨rfl, rfl, hu⟩
  | columns =>
      cases hu : update_current st.rows (u32InputChange text st.columns) st.active
          props with
      | none => simp [reconfigure, hu] at h
      | some cur =>
          simp only [reconfigure, Option.map_some', Option.some.injEq, hu] at h
          subst h
          exact ⟨rfl, rfl, hu⟩
  | active =>
      cases hu : update_current st.rows st.columns (u32InputChange text st.active)
          props with
      | none => simp [reconfigure, hu] at h
      | some cur =>
          simp only [reconfigure, Option.map_some', Option.some.injEq, hu] at h
          subst h
          exact ⟨rfl, rfl, hu⟩

theorem reconfigure_spec_witness :
    c2Reconfigured.score = c2State.score ∧
    c2Reconfigured.history = c2State.history :=
  ⟨(reconfigure_spec ConfigField.rows ['4'] [(0, 0), (1, 1)] c2State c2Reconfigured
      (by decide)).1,
   (reconfigure_spec ConfigField.rows ['4'] [(0, 0), (1, 1)] c2State c2Reconfigured
      (by decide)).2.1⟩

/-- Claim C8 is violated by the code: typing `0` into a dimension input with
prior value 3 is accepted (the handler only falls back to the prior value
when parsing fails), even though `rows * columns` then drops below 1; only
non-numeric text is rejected. -/
theorem u32Input_zero_accepted :
    u32InputChange ['0'] 3 = 0 ∧ (0 : Nat) ≠ 3 ∧
    parseU32 ['x'] = none ∧ u32InputChange ['x'] 3 = 3 := by decide

/-- Claim C10 is violated by the code: the public interface accepts
`rows = 0` (for example by typing `0` into the rows input), making
`rows * columns = 0 < 1`, and the `u32` expression `rows * columns - 1`
underflows, wrapping to `4294967295`. -/
theorem max_active_underflow :
    u32InputChange ['0'] 3 = 0 ∧ u32Mul 0 3 = 0 ∧ u32Mul 0 3 < 1 ∧
    max_active 0 3 = 4294967295 := by decide

theorem toLE_length (w : Nat) : ∀ n, (toLE w n).length = w := by
  induction w with
  | zero => intro n; rfl
  | succ w ih => intro n; simp [toLE, ih]

theorem toLE_lt (w : Nat) : ∀ n, ∀ b ∈ toLE w n, b < 256 := by
  induction w with
  | zero => intro n b hb; simp [toLE] at hb
  | succ w ih =>
      intro n b hb
      unfold toLE at hb
      rcases List.mem_cons.mp hb with he | ht
      · exact he ▸ Nat.mod_lt _ (by norm_num)
      · exact ih _ b ht

theorem fromLE_toLE (w : Nat) : ∀ n, n < 256 ^ w → fromLE (toLE w n) = n := by
  induction w with
  | zero =>
      intro n h
      rw [pow_zero] at h
      have : n = 0 := by omega
      simp [toLE, fromLE, this]
  | succ w ih =>
      intro n h
      have hdiv : n / 256 < 256 ^ w :=
        (Nat.div_lt_iff_lt_mul (by norm_num)).mpr (by rw [pow_succ] at h; exact h)
      simp only [toLE, fromLE, ih _ hdiv]
      omega

theorem sextetVal_sextetChar : ∀ n < 64, sextetVal (sextetChar n) = some n := by
  decide

theorem b64decode_b64encode : ∀ bs : List Nat, (∀ b ∈ bs, b < 256) →
    b64decode (b64encode bs) = some bs
  | [], _ => rfl
  | [b1], h => by
      have hb1 : b1 < 256 := h b1 (List.mem_cons_self _ _)
      have h1 : sextetVal (sextetChar (b1 / 4)) = some (b1 / 4) :=
        sextetVal_sextetChar _ (by omega)
      have h2 : sextetVal (sextetChar (b1 % 4 * 16)) = some (b1 % 4 * 16) :=
        sextetVal_sextetChar _ (by omega)
      simp only [b64encode, b64decode, h1, h2]
      have hmod : (b1 / 4 * 64 + b1 % 4 * 16) % 16 = 0 := by omega
      rw [if_pos hmod]
      simp only [Option.some.injEq, List.cons.injEq, and_true]
      omega
  | [b1, b2], h => by
      have hb1 : b1 < 256 := h b1 (List.mem_cons_self _ _)
      have hb2 : b2 < 256 := h b2 (List.mem_cons_of_mem _ (List.mem_cons_self _ _))
      have h1 : sextetVal (sextetChar ((b1 * 256 + b2) / 1024)) =
          some ((b1 * 256 + b2) / 1024) := sextetVal_sextetChar _ (by omega)
      have h2 : sextetVal (sextetChar ((b1 * 256 + b2) / 16 % 64)) =
          some ((b1 * 256 + b2) / 16 % 64) := sextetVal_sextetChar _ (by omega)
      have h3 : sextetVal (sextetChar ((b1 * 256 + b2) % 16 * 4)) =
          some ((b1 * 256 + b2) % 16 * 4) := sextetVal_sextetChar _ (by omega)
      simp only [b64encode, b64decode, h1, h2, h3]
      have hmod : (((b1 * 256 + b2) / 1024 * 64 + (b1 * 256 + b2) / 16 % 64) * 64 +
          (b1 * 256 + b2) % 16 * 4) % 4 = 0 := by omega
      rw [if_pos hmod]
      simp only [Option.some.injEq, List.cons.injEq, and_true]
      constructor
      · omega
      · omega
  | b1 :: b2 :: b3 :: rest, h => by
      have hb1 : b1 < 256 := h b1 (by simp)
      have hb2 : b2 < 256 := h b2 (by simp)
      have hb3 : b3 < 256 := h b3 (by simp)
      have ih := b64decode_b64encode rest (fun b hb => h b (by simp [hb]))
      have h1 : sextetVal (sextetChar (((b1 * 256 + b2) * 256 + b3) / 262144 % 64)) =
          some (((b1 * 256 + b2) * 256 + b3) / 262144 % 64) :=
        sextetVal_sextetChar _ (by omega)
      have h2 : sextetVal (sextetChar (((b1 * 256 + b2) * 256 + b3) / 4096 % 64)) =
          some (((b1 * 256 + b2) * 256 + b3) / 4096 % 64) :=
        sextetVal_sextetChar _ (by omega)
      have h3 : sextetVal (sextetChar (((b1 * 256 + b2) * 256 + b3) / 64 % 64)) =
          some (((b1 * 256 + b2) * 256 + b3) / 64 % 64) :=
        sextetVal_sextetChar _ (by omega)
      have h4 : sextetVal (sextetChar (((b1 * 256 + b2) * 256 + b3) % 64)) =
          some (((b1 * 256 + b2) * 256 + b3) % 64) :=
        sextetVal_sextetChar _ (by omega)
      simp only [b64encode, b64decode, h1, h2, h3, h4, ih]
      simp only [Option.some.injEq, List.cons.injEq]
      refine ⟨by omega, by omega, by omega, trivial⟩

theorem take_append_len (a b : List Nat) (n : Nat) (h : a.length = n) :
    (a ++ b).take n = a := by
  subst h
  induction a with
  | nil => rfl
  | cons x xs ih => simp [ih]

theorem drop_append_len (a b : List Nat) (n : Nat) (h : a.length = n) :
    (a ++ b).drop n = b := by
  subst h
  induction a with
  | nil => rfl
  | cons x xs ih => simp [ih]

theorem to_bytes_lt (r : Record) : ∀ b ∈ r.to_bytes, b < 256 := by
  intro b hb
  simp only [Record.to_bytes, List.mem_append] at hb
  rcases hb with h | h | h | h | h | h
  all_goals exact toLE_lt _ _ b h

theorem to_bytes_length (r : Record) : r.to_bytes.length = 36 := by
  simp [Record.to_bytes, toLE_length]

theorem from_bytes_to_bytes (r : Record)
    (hp : r.position < 4294967296) (hs : r.score < 4294967296)
    (hm : r.millis < 2 ^ 128) (hr : r.rows < 4294967296)
    (hc : r.columns < 4294967296) (ha : r.active < 4294967296) :
    Record.from_bytes r.to_bytes = some r := by
  obtain ⟨p, sc, mi, ro, co, ac⟩ := r
  simp only [Record.to_bytes] at *
  set bs := toLE 4 p ++ (toLE 4 sc ++ (toLE 16 mi ++
    (toLE 4 ro ++ (toLE 4 co ++ toLE 4 ac)))) with hbs
  have lA : (toLE 4 p).length = 4 := toLE_length 4 p
  have lB : (toLE 4 sc).length = 4 := toLE_length 4 sc
  have lC : (toLE 16 mi).length = 16 := toLE_length 16 mi
  have lD : (toLE 4 ro).length = 4 := toLE_length 4 ro
  have lE : (toLE 4 co).length = 4 := toLE_length 4 co
  have hlen : bs.length = 36 := by
    simp [hbs, toLE_length]
  have d4 : bs.drop 4 = toLE 4 sc ++ (toLE 16 mi ++
      (toLE 4 ro ++ (toLE 4 co ++ toLE 4 ac))) :=
    drop_append_len _ _ 4 lA
  have d8 : bs.drop 8 = toLE 16 mi ++ (toLE 4 ro ++ (toLE 4 co ++ toLE 4 ac)) := by
    have h1 : bs.drop 8 = (bs.drop 4).drop 4 := (List.drop_drop 4 4 bs).symm
    rw [h1, d4]
    exact drop_append_len _ _ 4 lB
  have d24 : bs.drop 24 = toLE 4 ro ++ (toLE 4 co ++ toLE 4 ac) := by
    have h1 : bs.drop 24 = (bs.drop 8).drop 16 := (List.drop_drop 16 8 bs).symm
    rw [h1, d8]
    exact drop_append_len _ _ 16 lC
  have d28 : bs.drop 28 = toLE 4 co ++ toLE 4 ac := by
    have h1 : bs.drop 28 = (bs.drop 24).drop 4 := (List.drop_drop 4 24 bs).symm
    rw [h1, d24]
    exact drop_append_len _ _ 4 lD
  have d32 : bs.drop 32 = toLE 4 ac := by
    have h1 : bs.drop 32 = (bs.drop 28).drop 4 := (List.drop_drop 4 28 bs).symm
    rw [h1, d28]
    exact drop_append_len _ _ 4 lE
  unfold Record.from_bytes
  rw [if_pos hlen]
  rw [show bs.take 4 = toLE 4 p from take_append_len _ _ 4 lA]
  rw [d4, show (toLE 4 sc ++ (toLE 16 mi ++ (toLE 4 ro ++ (toLE 4 co ++ toLE 4 ac)))).take 4
      = toLE 4 sc from take_append_len _ _ 4 lB]
  rw [d8, show (toLE 16 mi ++ (toLE 4 ro ++ (toLE 4 co ++ toLE 4 ac))).take 16
      = toLE 16 mi from take_append_len _ _ 16 lC]
  rw [d24, show (toLE 4 ro ++ (toLE 4 co ++ toLE 4 ac)).take 4
      = toLE 4 ro from take_append_len _ _ 4 lD]
  rw [d28, show (toLE 4 co ++ toLE 4 ac).take 4 = toLE 4 co from
      take_append_len _ _ 4 lE]
  have d32' : bs.drop 32 = toLE 4 ac ++ ([] : List Nat) := by
    rw [d32, List.append_nil]
  have t32 : (toLE 4 ac ++ ([] : List Nat)).take 4 = toLE 4 ac :=
    take_append_len (toLE 4 ac) [] 4 (toLE_length 4 ac)
  rw [d32', t32]
  rw [fromLE_toLE 4 p (by norm_num; omega), fromLE_toLE 4 sc (by norm_num; omega),
    fromLE_toLE 16 mi (by norm_num; omega), fromLE_toLE 4 ro (by norm_num; omega),
    fromLE_toLE 4 co (by norm_num; omega), fromLE_toLE 4 ac (by norm_num; omega)]
  rfl

/-- Claim C9: `Record::to_string` is the unpadded standard base64 encoding of
the 36-byte little-endian concatenation of position, score, millis, rows,
columns and active; `Record::from_str` inverts it on every record whose
fields fit their machine widths; and `Record::from_bytes` rejects every byte
slice whose length is not exactly 36. -/
theorem record_serde_roundtrip (r : Record)
    (hp : r.position < 4294967296) (hs : r.score < 4294967296)
    (hm : r.millis < 2 ^ 128) (hr : r.rows < 4294967296)
    (hc : r.columns < 4294967296) (ha : r.active < 4294967296) :
    Record.to_string r = b64encode (toLE 4 r.position ++ (toLE 4 r.score ++
      (toLE 16 r.millis ++ (toLE 4 r.rows ++ (toLE 4 r.columns ++
        toLE 4 r.active))))) ∧
    r.to_bytes.length = 36 ∧
    Record.from_str (Record.to_string r) = some r ∧
    ∀ bs : List Nat, bs.length ≠ 36 → Record.from_bytes bs = none := by
  refine ⟨rfl, to_bytes_length r, ?_, ?_⟩
  · unfold Record.from_str Record.to_string
    rw [b64decode_b64encode _ (to_bytes_lt r)]
    rw [Option.some_bind]
    exact from_bytes_to_bytes r hp hs hm hr hc ha
  · intro bs hne
    unfold Record.from_bytes
    rw [if_neg hne]

theorem record_serde_roundtrip_witness :
    Record.from_str (Record.to_string (Record.new 1 4 1500 3 3 2)) =
      some (Record.new 1 4 1500 3 3 2) :=
  (record_serde_roundtrip (Record.new 1 4 1500 3 3 2) (by decide) (by decide)
    (by decide) (by decide) (by decide) (by decide)).2.2.1

end Laim

